import Mathlib

/-!
# odgi bin: output callbacks, configuration check and identifier emitter

A shallow embedding of `src/subcommand/bin_main.cpp` (`main_bin` and the
closures it builds) and of `src/io_helper.hpp` (`id_emitter_factory`).

* `std::string` is a Lean `String`, read as a sequence of characters;
  `size_t` is 64 bits wide, so `std::string::npos = 2^64 - 1`.
* `std::cout` / `std::cerr` are lists of writes (`Out`).  Printing the
  argument parser (`std::cout << parser`) is one write whose text belongs to
  the `args` library.
* `algorithms::bin_path_info` lives outside these sources.  It is a parameter:
  for a delimiter, a bin count and a bin width it yields the calls it makes on
  the three callbacks it is handed.
* `path_info_t` is declared in `algorithms/bin_path_info.hpp`.  Its three
  means are floating point numbers; the callbacks only test `mean_cov` against
  zero and print the values, so the means are rationals here (a NaN or an
  infinity has no counterpart) and their printed form is a parameter `fmt`.
-/

namespace Odgi

/-! ## `std::string` operations used by the closures -/

/-- The value `std::string::npos` for a 64 bit `size_t`. -/
def npos : Nat := 2 ^ 64 - 1

/-- Scan for the first position at which `d` is a prefix of the rest of the
text; `i` is the position of the head of the remaining text. -/
def find_aux (d : List Char) : List Char → Nat → Nat
  | [], i => if d = [] then i else npos
  | c :: cs, i => if d.isPrefixOf (c :: cs) then i else find_aux d cs (i + 1)

/-- The call `s.find(d)`: index of the first occurrence of `d` in `s`, or
`npos` when there is none. -/
def find (s d : String) : Nat := find_aux d.data s.data 0

/-- The call `s.substr(pos, len)`: `none` stands for `std::out_of_range`,
thrown when `pos > s.size()`. -/
def substr (s : String) (pos len : Nat) : Option String :=
  if pos > s.length then none
  else some (String.mk ((s.data.drop pos).take len))

/-! ## The name closures of `main_bin` -/

/-- The closure `get_path_prefix`, with the captured `agg_delim` and `delim`
as arguments. -/
def get_path_prefix (agg_delim : Bool) (delim path_name : String) : Option String :=
  if agg_delim || delim.isEmpty then some "NA"
  else substr path_name 0 (find path_name delim)

/-- The closure `get_path_suffix`; `find(delim)+1` is computed in `size_t`,
and the length argument of `substr` is its default, `npos`. -/
def get_path_suffix (agg_delim : Bool) (delim path_name : String) : Option String :=
  if agg_delim || delim.isEmpty then some "NA"
  else substr path_name ((find path_name delim + 1) % 2 ^ 64) npos

/-! ## Bin records -/

/-- The record `algorithms::path_info_t`. -/
structure path_info_t where
  mean_cov : ℚ
  mean_inv : ℚ
  mean_pos : ℚ
  first_nucleotide : Int
  last_nucleotide : Int

/-- A `std::map<uint64_t, path_info_t>`, given by its in-order traversal. -/
abbrev BinMap := List (Nat × path_info_t)

/-- The keys of a `std::map` are met in strictly ascending order. -/
def keys_ascending (bins : BinMap) : Prop :=
  (bins.map Prod.fst).Pairwise (fun a b => a < b)

instance (bins : BinMap) : Decidable (keys_ascending bins) := by
  unfold keys_ascending
  infer_instance

/-- A stand-in for `operator<<` on a `double`, exact on the integer-valued
doubles of magnitude below `10^6`, which C++ prints without a fraction. -/
def show_whole (q : ℚ) : String := toString (q.num / q.den)

/-! ## The output callbacks -/

/-- The constant `ODGI_JSON_VERSION`. -/
def ODGI_JSON_VERSION : Nat := 10

/-- The closure `write_header_tsv`; it writes nothing. -/
def write_header_tsv (_pangenome_length _bin_width : Nat) : String := ""

/-- The closure `write_header_json`; `std::endl` is a newline. -/
def write_header_json (pangenome_length bin_width : Nat) : String :=
  "\x7b\"odgi_version\": " ++ toString ODGI_JSON_VERSION ++ ","
    ++ "\"bin_width\": " ++ toString bin_width ++ ","
    ++ "\"pangenome_length\": " ++ toString pangenome_length ++ "\x7d" ++ "\n"

/-- The closure `write_seq_json`, with the flag `write_seqs_not` as argument. -/
def write_seq_json (write_seqs_not : Bool) (bin_id : Nat) (seq : String) : String :=
  if write_seqs_not then
    "\x7b\"bin_id\":" ++ toString bin_id ++ "\x7d" ++ "\n"
  else
    "\x7b\"bin_id\":" ++ toString bin_id ++ ","
      ++ "\"sequence\":\"" ++ seq ++ "\"\x7d" ++ "\n"

/-- The closure `write_seq_noop`. -/
def write_seq_noop (_bin_id : Nat) (_seq : String) : String := ""

/-- The first loop of `write_json`: `i` is the loop counter, the list is what
the iterator `entry_it` has still to visit, `size` is `bins.size()`. -/
def write_json_bins_loop (fmt : ℚ → String) (size : Nat) :
    Nat → BinMap → String → String
  | _, [], out => out
  | i, entry :: rest, out =>
    let out := out ++ "[" ++ toString entry.1 ++ ","
      ++ fmt entry.2.mean_cov ++ ","
      ++ fmt entry.2.mean_inv ++ ","
      ++ fmt entry.2.mean_pos ++ ","
      ++ toString entry.2.first_nucleotide ++ ","
      ++ toString entry.2.last_nucleotide ++ "]"
    let out := if i + 1 ≠ size then out ++ "," else out
    write_json_bins_loop fmt size (i + 1) rest out

/-- The second loop of `write_json`, over `links[i]` for `i < links.size()`. -/
def write_json_links_loop (size : Nat) :
    Nat → List (Nat × Nat) → String → String
  | _, [], out => out
  | i, link :: rest, out =>
    let out := out ++ "[" ++ toString link.1 ++ "," ++ toString link.2 ++ "]"
    let out := if i + 1 < size then out ++ "," else out
    write_json_links_loop size (i + 1) rest out

/-- The closure `write_json`. -/
def write_json (fmt : ℚ → String) (agg_delim : Bool) (delim path_name : String)
    (links : List (Nat × Nat)) (bins : BinMap) : Option String := do
  let name_prefix ← get_path_prefix agg_delim delim path_name
  let name_suffix ← get_path_suffix agg_delim delim path_name
  let out := "\x7b\"path_name\":\"" ++ path_name ++ "\","
  let out :=
    if !delim.isEmpty then
      out ++ "\"path_name_prefix\":\"" ++ name_prefix ++ "\","
        ++ "\"path_name_suffix\":\"" ++ name_suffix ++ "\","
    else out
  let out := out ++ "\"bins\":["
  let out := write_json_bins_loop fmt bins.length 0 bins out
  let out := out ++ "],"
  let out := out ++ "\"links\":["
  let out := write_json_links_loop links.length 0 links out
  pure (out ++ "]\x7d" ++ "\n")

/-- The range-for of `write_tsv` over the entries of `bins`, threading the
stream. -/
def write_tsv_loop (fmt : ℚ → String) (path_name name_prefix name_suffix : String) :
    BinMap → String → String
  | [], out => out
  | entry :: rest, out =>
    if entry.2.mean_cov ≠ 0 then
      write_tsv_loop fmt path_name name_prefix name_suffix rest
        (out ++ path_name ++ "\t"
          ++ name_prefix ++ "\t"
          ++ name_suffix ++ "\t"
          ++ toString entry.1 ++ "\t"
          ++ fmt entry.2.mean_cov ++ "\t"
          ++ fmt entry.2.mean_inv ++ "\t"
          ++ fmt entry.2.mean_pos ++ "\t"
          ++ toString entry.2.first_nucleotide ++ "\t"
          ++ toString entry.2.last_nucleotide ++ "\n")
    else write_tsv_loop fmt path_name name_prefix name_suffix rest out

/-- The closure `write_tsv`. -/
def write_tsv (fmt : ℚ → String) (agg_delim : Bool) (delim path_name : String)
    (_links : List (Nat × Nat)) (bins : BinMap) : Option String := do
  let name_prefix ← get_path_prefix agg_delim delim path_name
  let name_suffix ← get_path_suffix agg_delim delim path_name
  pure (write_tsv_loop fmt path_name name_prefix name_suffix bins "")

/-- The header line `main_bin` writes in tabular mode. -/
def tsv_header_line : String :=
  "path.name" ++ "\t" ++ "path.prefix" ++ "\t" ++ "path.suffix" ++ "\t" ++ "bin" ++ "\t"
    ++ "mean.cov" ++ "\t" ++ "mean.inv" ++ "\t" ++ "mean.pos" ++ "\n"

/-! ## `main_bin` -/

/-- The values `args::get` returns for the flags of `odgi bin`; `num_bins`
and `bin_width` are `uint64_t`. -/
structure Flags where
  dg_out_file : String
  dg_in_file : String
  path_delim : String
  output_json : Bool
  aggregate_delim : Bool
  num_bins : Nat
  bin_width : Nat
  write_seqs_not : Bool

/-- The flags of a command line that sets none of them. -/
def Flags.unset : Flags := ⟨"", "", "", false, false, 0, 0, false⟩

/-- The three ways `parser.ParseCLI` ends: it throws `args::Help`, it throws
`args::ParseError`, or it returns with the flags filled in. -/
inductive Parsed
  | help
  | parse_error (what : String)
  | ok (flags : Flags)

/-- One write on a stream: the help text of the argument parser, or text
produced by `main_bin` itself. -/
inductive Out
  | parser_help
  | text (s : String)
  deriving DecidableEq, Repr

/-- A write of `s`; an empty text leaves the stream as it is. -/
def put (s : String) : List Out := if s = "" then [] else [Out.text s]

/-- How `main_bin` ends: it returns a status, or an exception leaves it. -/
inductive Exit
  | returned (status : Int)
  | terminated
  deriving DecidableEq, Repr

/-- One call made by the binning engine on the callbacks it was given. -/
inductive SinkCall
  | header (pangenome_length bin_width : Nat)
  | bin_seq (bin_id : Nat) (seq : String)
  | path_row (path_name : String) (links : List (Nat × Nat)) (bins : BinMap)

/-- The arguments of a call of `algorithms::bin_path_info`, and the format
whose callbacks it was handed. -/
structure EngineCall where
  delim : String
  json : Bool
  num_bins : Nat
  bin_width : Nat
  deriving DecidableEq, Repr

/-- What a run of `main_bin` leaves behind. -/
structure Run where
  exit : Exit
  stdout : List Out
  stderr : List Out
  engine_call : Option EngineCall

/-- The writes on `std::cout` of the calls the engine makes, in order, and
whether every callback returned. -/
def drive (on_header : Nat → Nat → String)
    (on_row : String → List (Nat × Nat) → BinMap → Option String)
    (on_seq : Nat → String → String) : List SinkCall → List Out × Bool
  | [] => ([], true)
  | SinkCall.header l w :: cs =>
    let r := drive on_header on_row on_seq cs
    (put (on_header l w) ++ r.1, r.2)
  | SinkCall.bin_seq i s :: cs =>
    let r := drive on_header on_row on_seq cs
    (put (on_seq i s) ++ r.1, r.2)
  | SinkCall.path_row n ls bs :: cs =>
    match on_row n ls bs with
    | none => ([], false)
    | some t =>
      let r := drive on_header on_row on_seq cs
      (put t ++ r.1, r.2)

/-- The function `main_bin`.  `nargs` is the number of arguments that follow
`odgi bin`, so that `argc` is `nargs + 1` once the subcommand name has been
shifted out.  The graph is read from `dg_in_file` before the configuration
check, without a write of `main_bin`; `engine` is `algorithms::bin_path_info`
on that graph. -/
def main_bin (fmt : ℚ → String) (engine : String → Nat → Nat → List SinkCall)
    (nargs : Nat) (p : Parsed) : Run :=
  match p with
  | Parsed.help => ⟨Exit.returned 0, [Out.parser_help], [], none⟩
  | Parsed.parse_error what =>
    ⟨Exit.returned 1, [], [Out.text (what ++ "\n"), Out.parser_help], none⟩
  | Parsed.ok a =>
    if nargs + 1 = 1 then ⟨Exit.returned 1, [Out.parser_help], [], none⟩
    else
      let delim := a.path_delim
      let agg_delim := a.aggregate_delim
      if (a.num_bins + a.bin_width) % 2 ^ 64 = 0 then
        ⟨Exit.returned 1, [],
          [Out.text ("[odgi bin] error: a bin width or a bin count is required" ++ "\n")], none⟩
      else if a.output_json then
        let d := if a.aggregate_delim then a.path_delim else ""
        let r := drive write_header_json (write_json fmt agg_delim delim)
          (write_seq_json a.write_seqs_not) (engine d a.num_bins a.bin_width)
        ⟨if r.2 then Exit.returned 0 else Exit.terminated, r.1, [],
          some ⟨d, true, a.num_bins, a.bin_width⟩⟩
      else
        let d := if a.aggregate_delim then a.path_delim else ""
        let r := drive write_header_tsv (write_tsv fmt agg_delim delim)
          write_seq_noop (engine d a.num_bins a.bin_width)
        ⟨if r.2 then Exit.returned 0 else Exit.terminated, put tsv_header_line ++ r.1, [],
          some ⟨d, false, a.num_bins, a.bin_width⟩⟩

/-! ## `id_emitter_factory` -/

/-- The struct `id_emitter_factory`: the set of identifiers seen and the last
id handed out. -/
structure id_emitter_factory where
  seen_identifiers : List String
  current_id : Int

/-- The constructor `id_emitter_factory()`. -/
def id_emitter_factory.fresh : id_emitter_factory := ⟨[], 0⟩

/-- How a call of `emit_id` ends: it returns an id, or it reports a duplicate
and calls `exit(1)`. -/
inductive Emitted
  | id (n : Int)
  | duplicate_error (message : String)
  deriving DecidableEq, Repr

/-- The member `emit_id`: the result of the call and the factory after it. -/
def id_emitter_factory.emit_id (f : id_emitter_factory) (identifier : String) :
    Emitted × id_emitter_factory :=
  if f.seen_identifiers.count identifier = 0 then
    (Emitted.id (f.current_id + 1), ⟨f.seen_identifiers, f.current_id + 1⟩)
  else
    (Emitted.duplicate_error
      ("Error: duplicated IDs in GFA file: " ++ identifier ++ "." ++ "\n"), f)

/-- Successive calls of `emit_id` on one factory, as in the loop of
`dank_from_gfa_file`; the process ends with the call that reports a
duplicate. -/
def emit_ids : id_emitter_factory → List String → List Emitted
  | _, [] => []
  | f, identifier :: rest =>
    match f.emit_id identifier with
    | (Emitted.id n, g) => Emitted.id n :: emit_ids g rest
    | (Emitted.duplicate_error m, _) => [Emitted.duplicate_error m]

/-! ## The output formats, as the specification words them -/

/-- One tabular row: the nine fields, tab-separated, and a newline. -/
def tsv_row (fmt : ℚ → String) (path_name name_prefix name_suffix : String)
    (e : Nat × path_info_t) : String :=
  String.intercalate "\t"
    [path_name, name_prefix, name_suffix, toString e.1,
      fmt e.2.mean_cov, fmt e.2.mean_inv, fmt e.2.mean_pos,
      toString e.2.first_nucleotide, toString e.2.last_nucleotide] ++ "\n"

/-- One row for each bin that `keep` selects and none for any other, in the
order of the map. -/
def tsv_rows (keep : path_info_t → Bool) (fmt : ℚ → String)
    (path_name name_prefix name_suffix : String) (bins : BinMap) : String :=
  String.join ((bins.filter (fun e => keep e.2)).map
    (tsv_row fmt path_name name_prefix name_suffix))

/-- One entry of the `"bins"` array: six comma-separated elements. -/
def json_bin_entry (fmt : ℚ → String) (e : Nat × path_info_t) : String :=
  "[" ++ String.intercalate ","
    [toString e.1, fmt e.2.mean_cov, fmt e.2.mean_inv, fmt e.2.mean_pos,
      toString e.2.first_nucleotide, toString e.2.last_nucleotide] ++ "]"

/-- One entry of the `"links"` array: the pair `[from_bin, to_bin]`. -/
def json_link_entry (l : Nat × Nat) : String :=
  "[" ++ String.intercalate "," [toString l.1, toString l.2] ++ "]"

/-- The record of one path: its name, the prefix and suffix members when
`names` holds them, one entry per bin and one per link, each array
comma-separated, and a newline. -/
def json_path_record (fmt : ℚ → String) (path_name : String)
    (names : Option (String × String)) (links : List (Nat × Nat)) (bins : BinMap) : String :=
  "\x7b\"path_name\":\"" ++ path_name ++ "\","
    ++ (match names with
        | none => ""
        | some ps => "\"path_name_prefix\":\"" ++ ps.1 ++ "\","
            ++ "\"path_name_suffix\":\"" ++ ps.2 ++ "\",")
    ++ "\"bins\":[" ++ String.intercalate "," (bins.map (json_bin_entry fmt)) ++ "],"
    ++ "\"links\":[" ++ String.intercalate "," (links.map json_link_entry) ++ "]\x7d"
    ++ "\n"

/-- One JSON object whose members are the given keys with unsigned values,
in order. -/
def json_object (members : List (String × Nat)) : String :=
  "\x7b" ++ String.intercalate ","
    (members.map (fun m => "\"" ++ m.1 ++ "\": " ++ toString m.2)) ++ "\x7d"

/-! ## Facts about `find` and `substr` -/

theorem find_aux_first (d : List Char) :
    ∀ (s : List Char) (base i : Nat), d <+: s.drop i →
      (∀ j, j < i → ¬ d <+: s.drop j) → find_aux d s base = base + i := by
  intro s
  induction s with
  | nil =>
    intro base i hp hmin
    have hd : d = [] := by simpa using hp
    cases i with
    | zero => simp [find_aux, hd]
    | succ k => exact absurd (by simp [hd]) (hmin 0 (Nat.succ_pos k))
  | cons c cs ih =>
    intro base i hp hmin
    cases i with
    | zero =>
      have h0 : d.isPrefixOf (c :: cs) = true := by
        rw [ List.isPrefixOf_iff_prefix]; simpa using hp
      simp [find_aux, h0]
    | succ k =>
      have h0 : d.isPrefixOf (c :: cs) = false := by
        have := hmin 0 (Nat.succ_pos k)
        rw [← Bool.not_eq_true, List.isPrefixOf_iff_prefix]
        simpa using this
      have hk : find_aux d cs (base + 1) = base + 1 + k :=
        ih (base + 1) k (by simpa using hp)
          (fun j hj => by simpa using hmin (j + 1) (Nat.succ_lt_succ hj))
      simp only [find_aux, h0, hk]
      simp
      omega

theorem find_aux_absent (d : List Char) :
    ∀ (s : List Char) (base : Nat), (∀ j, ¬ d <+: s.drop j) → find_aux d s base = npos := by
  intro s
  induction s with
  | nil =>
    intro base h
    have hd : d ≠ [] := by
      intro hd
      exact h 0 (by simp [hd])
    simp [find_aux, hd]
  | cons c cs ih =>
    intro base h
    have h0 : d.isPrefixOf (c :: cs) = false := by
      have := h 0
      rw [← Bool.not_eq_true, List.isPrefixOf_iff_prefix]
      simpa using this
    have hk : find_aux d cs (base + 1) = npos :=
      ih (base + 1) (fun j => by simpa using h (j + 1))
    simp [find_aux, h0, hk]

theorem occurrence_is_infix {d s : List Char} {j : Nat} (h : d <+: s.drop j) : d <:+: s :=
  List.IsInfix.trans h.isInfix (List.drop_suffix j s).isInfix

theorem infix_has_occurrence {d s : List Char} (h : d <:+: s) : ∃ j, d <+: s.drop j := by
  obtain ⟨a, b, rfl⟩ := h
  refine ⟨a.length, ?_⟩
  simp [List.append_assoc]

theorem isEmpty_eq_false_of_ne {d : String} (h : d ≠ "") : d.isEmpty = false := by
  cases hb : d.isEmpty with
  | false => rfl
  | true => exact absurd ((String.isEmpty_iff d).mp hb) h

theorem prefix_of_first (delim path_name : String) (hd : delim ≠ "") (i : Nat)
    (hocc : delim.data <+: path_name.data.drop i)
    (hmin : ∀ j, j < i → ¬ delim.data <+: path_name.data.drop j) :
    get_path_prefix false delim path_name = some (String.mk (path_name.data.take i)) := by
  have hf : find path_name delim = i := by
    simpa [find] using find_aux_first delim.data path_name.data 0 i hocc hmin
  simp [ get_path_prefix, isEmpty_eq_false_of_ne hd, substr, hf]

theorem first_lt_length (delim path_name : String) (hd : delim ≠ "") (i : Nat)
    (hocc : delim.data <+: path_name.data.drop i) : i < path_name.length := by
  have hne : delim.data ≠ [] := by
    intro h
    exact hd (String.ext h)
  have hlen := hocc.length_le
  have hpos : 0 < delim.data.length := List.length_pos.mpr hne
  simp only [List.length_drop] at hlen
  show i < path_name.data.length
  omega

theorem suffix_of_first (delim path_name : String) (hd : delim ≠ "")
    (hlen : path_name.length < 2 ^ 64) (i : Nat)
    (hocc : delim.data <+: path_name.data.drop i)
    (hmin : ∀ j, j < i → ¬ delim.data <+: path_name.data.drop j) :
    get_path_suffix false delim path_name = some (String.mk (path_name.data.drop (i + 1))) := by
  have hf : find path_name delim = i := by
    simpa [find] using find_aux_first delim.data path_name.data 0 i hocc hmin
  have hi := first_lt_length delim path_name hd i hocc
  have hmod : (i + 1) % 18446744073709551616 = i + 1 := Nat.mod_eq_of_lt (by omega)
  have hle : ¬ (i + 1 > path_name.length) := by omega
  have htake : List.take npos (List.drop (i + 1) path_name.data)
      = List.drop (i + 1) path_name.data := by
    apply List.take_of_length_le
    have : path_name.data.length = path_name.length := rfl
    simp only [List.length_drop, npos]
    omega
  simp [get_path_suffix, isEmpty_eq_false_of_ne hd, substr, hf, hmod, hle, htake]

/-- C5: with aggregate-by-delimiter requested, prefix and suffix are both
`"NA"` for every path name and delimiter; otherwise, for a non-empty
delimiter that occurs in the name at first index `i`, the prefix is the first
`i` characters of the name and the suffix is the name from character `i + 1`
to its end. -/
theorem get_path_prefix_suffix_derivation (agg_delim : Bool) (delim path_name : String) :
    (agg_delim = true →
      get_path_prefix agg_delim delim path_name = some "NA"
        ∧ get_path_suffix agg_delim delim path_name = some "NA")
    ∧ (agg_delim = false → delim ≠ "" → path_name.length < 2 ^ 64 →
        ∀ i, delim.data <+: path_name.data.drop i →
          (∀ j, j < i → ¬ delim.data <+: path_name.data.drop j) →
          get_path_prefix agg_delim delim path_name
              = some (String.mk (path_name.data.take i))
            ∧ get_path_suffix agg_delim delim path_name
              = some (String.mk (path_name.data.drop (i + 1)))) := by
  constructor
  · intro h
    subst h
    simp [ get_path_prefix, get_path_suffix]
  · intro h hd hlen i hocc hmin
    subst h
    exact ⟨prefix_of_first delim path_name hd i hocc hmin,
      suffix_of_first delim path_name hd hlen i hocc hmin⟩

/-- The derivation of C5 at the name `a.b`, with aggregation and without. -/
theorem get_path_prefix_suffix_derivation_witness :
    ( get_path_prefix true "." "a.b" = some "NA" ∧ get_path_suffix true "." "a.b" = some "NA")
    ∧ ( get_path_prefix false "." "a.b" = some "a" ∧ get_path_suffix false "." "a.b" = some "b") :=
  ⟨(get_path_prefix_suffix_derivation true "." "a.b").1 rfl,
   (get_path_prefix_suffix_derivation false "." "a.b").2 rfl (by decide) (by decide) 1
     (by decide) (by decide)⟩

/-- C10: without aggregation, for a non-empty delimiter that does not occur
in the path name, neither closure throws and both return the whole name:
`find` yields `npos`, taken as a length by the prefix, and `npos + 1` wraps to
the start offset `0` of the suffix. -/
theorem get_path_prefix_suffix_absent (delim path_name : String) (hd : delim ≠ "")
    (hlen : path_name.length < 2 ^ 64) (habs : ¬ delim.data <:+: path_name.data) :
    find path_name delim = npos
      ∧ (find path_name delim + 1) % 2 ^ 64 = 0
      ∧ get_path_prefix false delim path_name = some path_name
      ∧ get_path_suffix false delim path_name = some path_name := by
  have hf : find path_name delim = npos := by
    simpa [find] using find_aux_absent delim.data path_name.data 0
      (fun j hj => habs ( occurrence_is_infix hj))
  have hwrap : (npos + 1) % 2 ^ 64 = 0 := by decide
  have htake : List.take npos path_name.data = path_name.data := by
    apply List.take_of_length_le
    have : path_name.data.length = path_name.length := rfl
    simp only [npos]
    omega
  refine ⟨hf, by rw [hf]; exact hwrap, ?_, ?_⟩
  · simp [ get_path_prefix, isEmpty_eq_false_of_ne hd, substr, hf, htake]
  · have hwrap2 : (npos + 1) % 18446744073709551616 = 0 := hwrap
    simp [get_path_suffix, isEmpty_eq_false_of_ne hd, substr, hf, hwrap2, htake]

/-- The statement of C10 at the name `ab`, which has no `.` in it. -/
theorem get_path_prefix_suffix_absent_witness :
    get_path_prefix false "." "ab" = some "ab" ∧ get_path_suffix false "." "ab" = some "ab" :=
  (get_path_prefix_suffix_absent "." "ab" (by decide) (by decide) (by decide)).2.2

theorem no_occurrence_before_first (d s : List Char) (hd : d ≠ []) (i : Nat)
    (hmin : ∀ j, j < i → ¬ d <+: s.drop j) : ¬ d <:+: s.take i := by
  intro h
  obtain ⟨j, hj⟩ := infix_has_occurrence h
  rw [List.drop_take] at hj
  have hlen := hj.length_le
  have hpos : 0 < d.length := List.length_pos.mpr hd
  have hji : j < i := by
    simp only [List.length_take] at hlen
    omega
  exact hmin j hji (hj.trans (List.take_prefix _ _))

/-- C9, amended: without aggregation, for every delimiter `d` of exactly one
character and every path name that contains `d`, both closures return, the
prefix followed by `d` and the suffix is the name, and `d` does not occur in
the prefix. -/
theorem one_char_delim_split (delim path_name : String) (c : Char)
    (hc : delim.data = [c]) (hlen : path_name.length < 2 ^ 64)
    (hocc : delim.data <:+: path_name.data) :
    ∃ p s, get_path_prefix false delim path_name = some p
      ∧ get_path_suffix false delim path_name = some s
      ∧ p ++ delim ++ s = path_name
      ∧ ¬ delim.data <:+: p.data := by
  have hd : delim ≠ "" := by
    intro h
    rw [h] at hc
    simp at hc
  have hne : delim.data ≠ [] := by simp [hc]
  have hex : ∃ j, delim.data <+: path_name.data.drop j := infix_has_occurrence hocc
  classical
  obtain ⟨i, hi, hmin⟩ : ∃ i, delim.data <+: path_name.data.drop i
      ∧ ∀ j, j < i → ¬ delim.data <+: path_name.data.drop j :=
    ⟨Nat.find hex, Nat.find_spec hex, fun j hj => Nat.find_min hex hj⟩
  refine ⟨_, _, prefix_of_first delim path_name hd i hi hmin,
    suffix_of_first delim path_name hd hlen i hi hmin, ?_,
    no_occurrence_before_first _ _ hne i hmin⟩
  have hlt : i < path_name.data.length := first_lt_length delim path_name hd i hi
  apply String.ext
  simp only [String.data_append, hc]
  rw [hc, List.drop_eq_getElem_cons hlt, List.cons_prefix_cons] at hi
  have hsplit := List.take_append_drop i path_name.data
  rw [List.drop_eq_getElem_cons hlt, ← hi.1] at hsplit
  simpa using hsplit

/-- The amended C9 at the delimiter `.` and the name `a.b`. -/
theorem one_char_delim_split_witness :
    String.data "." = ['.'] ∧ String.length "a.b" < 2 ^ 64
      ∧ String.data "." <:+: String.data "a.b"
      ∧ ∃ p s, get_path_prefix false "." "a.b" = some p
        ∧ get_path_suffix false "." "a.b" = some s
        ∧ p ++ "." ++ s = "a.b"
        ∧ ¬ String.data "." <:+: p.data :=
  ⟨rfl, by decide, by decide,
    one_char_delim_split "." "a.b" '.' rfl (by decide) (by decide)⟩

/-- C9 as stated fails at the delimiter `::` and the name `a::b`: the
delimiter is not empty and occurs in the name, the prefix is `a`, the suffix
is `:b`, and prefix, delimiter and suffix do not add up to the name. -/
theorem two_char_delim_split :
    "::" ≠ "" ∧ String.data "::" <:+: String.data "a::b"
      ∧ get_path_prefix false "::" "a::b" = some "a"
      ∧ get_path_suffix false "::" "a::b" = some ":b"
      ∧ "a" ++ "::" ++ ":b" ≠ "a::b" := by
  decide

/-! ## Facts about joining strings -/

theorem foldl_append_acc (l : List String) (acc : String) :
    l.foldl (fun r s => r ++ s) acc = acc ++ l.foldl (fun r s => r ++ s) "" := by
  induction l generalizing acc with
  | nil => simp
  | cons a l ih =>
    simp only [List.foldl_cons]
    rw [ih (acc ++ a), ih ("" ++ a)]
    simp [String.append_assoc]

theorem join_nil : String.join [] = "" := rfl

theorem join_cons (a : String) (l : List String) :
    String.join (a :: l) = a ++ String.join l := by
  unfold String.join
  simp only [List.foldl_cons]
  rw [foldl_append_acc]
  simp

theorem intercalate_go (sep : String) (l : List String) (acc : String) :
    String.intercalate.go acc sep l = acc ++ String.join (l.map (fun x => sep ++ x)) := by
  induction l generalizing acc with
  | nil => simp [String.intercalate.go, join_nil]
  | cons a l ih =>
    simp only [String.intercalate.go, List.map_cons, join_cons]
    rw [ih]
    simp [String.append_assoc]

theorem intercalate_singleton (sep a : String) : String.intercalate sep [a] = a := by
  simp [String.intercalate, String.intercalate.go]

theorem intercalate_cons_cons (sep a b : String) (l : List String) :
    String.intercalate sep (a :: b :: l) = a ++ sep ++ String.intercalate sep (b :: l) := by
  simp only [String.intercalate, String.intercalate.go]
  rw [intercalate_go, intercalate_go]
  simp [String.append_assoc]

/-! ## The callbacks never throw -/

theorem find_aux_cases (d : List Char) :
    ∀ (s : List Char) (base : Nat), find_aux d s base = npos
      ∨ ∃ i, find_aux d s base = base + i ∧ i ≤ s.length ∧ (d ≠ [] → i < s.length) := by
  intro s
  induction s with
  | nil =>
    intro base
    by_cases hd : d = []
    · exact Or.inr ⟨0, by simp [find_aux, hd], Nat.le_refl _, fun h => absurd hd h⟩
    · exact Or.inl (by simp [find_aux, hd])
  | cons c cs ih =>
    intro base
    by_cases h0 : d.isPrefixOf (c :: cs) = true
    · exact Or.inr ⟨0, by simp [find_aux, h0], Nat.zero_le _, fun _ => Nat.succ_pos _⟩
    · have h1 : find_aux d (c :: cs) base = find_aux d cs (base + 1) := by
        simp [find_aux, h0]
      rcases ih (base + 1) with h | ⟨i, hi, hle, hlt⟩
      · exact Or.inl (h1.trans h)
      · refine Or.inr ⟨i + 1, ?_, ?_, ?_⟩
        · rw [h1, hi]; omega
        · simpa using hle
        · intro hd
          simpa using hlt hd

theorem get_path_prefix_returns (agg_delim : Bool) (delim path_name : String) :
    ∃ p, get_path_prefix agg_delim delim path_name = some p := by
  unfold get_path_prefix
  split
  · exact ⟨_, rfl⟩
  · refine ⟨String.mk ((path_name.data.drop 0).take (find path_name delim)), ?_⟩
    simp [substr]

theorem get_path_suffix_returns (agg_delim : Bool) (delim path_name : String) :
    ∃ p, get_path_suffix agg_delim delim path_name = some p := by
  unfold get_path_suffix
  split
  · exact ⟨_, rfl⟩
  · rename_i h
    have hne : delim.data ≠ [] := by
      intro hd
      apply h
      have : delim = "" := String.ext hd
      subst this
      have he : "".isEmpty = true := by decide
      simp [he]
    have hpos : (find path_name delim + 1) % 2 ^ 64 ≤ path_name.length := by
      rcases find_aux_cases delim.data path_name.data 0 with hn | ⟨i, hi, _, hlt⟩
      · have : find path_name delim = npos := hn
        rw [this]
        have : (npos + 1) % 2 ^ 64 = 0 := by decide
        omega
      · have hfi : find path_name delim = i := by simpa [find] using hi
        rw [hfi]
        have h1 : i < path_name.data.length := hlt hne
        have h2 : (i + 1) % 2 ^ 64 ≤ i + 1 := Nat.mod_le _ _
        show _ ≤ path_name.data.length
        omega
    refine ⟨String.mk ((path_name.data.drop
      ((find path_name delim + 1) % 2 ^ 64)).take npos), ?_⟩
    simp only [substr, Nat.not_lt.mpr hpos, gt_iff_lt, if_false]

/-! ## The tabular rows -/

theorem write_tsv_loop_rows (fmt : ℚ → String) (path_name name_prefix name_suffix : String) :
    ∀ (bins : BinMap) (out : String),
      write_tsv_loop fmt path_name name_prefix name_suffix bins out
        = out ++ tsv_rows (fun info => decide (info.mean_cov ≠ 0)) fmt
            path_name name_prefix name_suffix bins := by
  intro bins
  induction bins with
  | nil =>
    intro out
    simp [write_tsv_loop, tsv_rows, join_nil]
  | cons e rest ih =>
    intro out
    by_cases h : e.2.mean_cov = 0
    · simp only [write_tsv_loop, h, ne_eq, not_true_eq_false, if_false]
      rw [ih]
      simp [tsv_rows, List.filter, h]
    · simp only [write_tsv_loop, h, ne_eq, not_false_eq_true, if_true]
      rw [ih]
      simp [tsv_rows, List.filter, h, join_cons, tsv_row, String.intercalate,
        String.intercalate.go, String.append_assoc]

theorem keys_ascending_filter (keep : Nat × path_info_t → Bool) (bins : BinMap)
    (h : keys_ascending bins) : keys_ascending (bins.filter keep) := by
  unfold keys_ascending at *
  exact List.Pairwise.sublist ((List.filter_sublist bins).map Prod.fst) h

theorem tsv_rows_congr (k₁ k₂ : path_info_t → Bool) (fmt : ℚ → String)
    (path_name name_prefix name_suffix : String) (bins : BinMap)
    (h : ∀ e, e ∈ bins → k₁ e.2 = k₂ e.2) :
    tsv_rows k₁ fmt path_name name_prefix name_suffix bins
      = tsv_rows k₂ fmt path_name name_prefix name_suffix bins := by
  unfold tsv_rows
  congr 2
  exact List.filter_congr h

/-- For every path name, link list and map of bin records, `write_tsv`
returns and writes exactly one row for each bin whose `mean_cov` passes the
test `if (info.mean_cov)`, that is, is not zero, and none for any other bin,
in the order of the map; where no `mean_cov` is negative these are the bins
with `mean_cov > 0`. -/
theorem write_tsv_rows_nonzero (fmt : ℚ → String) (agg_delim : Bool)
    (delim path_name : String) (links : List (Nat × Nat)) (bins : BinMap)
    (hasc : keys_ascending bins) :
    ∃ p s, get_path_prefix agg_delim delim path_name = some p
      ∧ get_path_suffix agg_delim delim path_name = some s
      ∧ write_tsv fmt agg_delim delim path_name links bins
          = some (tsv_rows (fun info => decide (info.mean_cov ≠ 0)) fmt path_name p s bins)
      ∧ keys_ascending (bins.filter (fun e => decide (e.2.mean_cov ≠ 0)))
      ∧ ((∀ e, e ∈ bins → 0 ≤ e.2.mean_cov) →
          write_tsv fmt agg_delim delim path_name links bins
            = some (tsv_rows (fun info => decide (0 < info.mean_cov)) fmt
                path_name p s bins)) := by
  obtain ⟨p, hp⟩ := get_path_prefix_returns agg_delim delim path_name
  obtain ⟨s, hs⟩ := get_path_suffix_returns agg_delim delim path_name
  have hw : write_tsv fmt agg_delim delim path_name links bins
      = some (tsv_rows (fun info => decide (info.mean_cov ≠ 0)) fmt path_name p s bins) := by
    simp only [write_tsv, hp, hs, Option.bind_eq_bind, Option.some_bind, Option.pure_def]
    rw [write_tsv_loop_rows]
    simp
  refine ⟨p, s, hp, hs, hw, keys_ascending_filter _ bins hasc, ?_⟩
  intro hnn
  rw [hw]
  congr 1
  apply tsv_rows_congr
  intro e he
  have h0 := hnn e he
  by_cases hz : e.2.mean_cov = 0
  · simp [hz]
  · have : 0 < e.2.mean_cov := lt_of_le_of_ne h0 (Ne.symm hz)
    simp [hz, this]

/-- C3: for every path name, link list and bin-id-keyed map of bin records
(a coverage mean is never negative), `write_tsv` returns and writes exactly
one line for each bin whose `mean_cov > 0` and none for any other bin, the
lines in ascending bin-id order, each line made of the nine tab-separated
fields path name, path prefix, path suffix, bin id, `mean_cov`, `mean_inv`,
`mean_pos`, `first_nucleotide`, `last_nucleotide`. -/
theorem write_tsv_rows_positive (fmt : ℚ → String) (agg_delim : Bool)
    (delim path_name : String) (links : List (Nat × Nat)) (bins : BinMap)
    (hasc : keys_ascending bins) (hcov : ∀ e, e ∈ bins → 0 ≤ e.2.mean_cov) :
    ∃ p s, get_path_prefix agg_delim delim path_name = some p
      ∧ get_path_suffix agg_delim delim path_name = some s
      ∧ write_tsv fmt agg_delim delim path_name links bins
          = some (tsv_rows (fun info => decide (0 < info.mean_cov)) fmt path_name p s bins)
      ∧ keys_ascending (bins.filter (fun e => decide (0 < e.2.mean_cov))) := by
  obtain ⟨p, s, hp, hs, _, _, hpos⟩ :=
    write_tsv_rows_nonzero fmt agg_delim delim path_name links bins hasc
  exact ⟨p, s, hp, hs, hpos hcov, keys_ascending_filter _ bins hasc⟩

/-- The statement of C3 on a map with two covered bins and an empty bin
between them. -/
theorem write_tsv_rows_positive_witness :
    keys_ascending [(0, ⟨1, 0, 5, 0, 9⟩), (1, ⟨0, 0, 0, 0, 0⟩), (2, ⟨1, 1, 25, 0, 9⟩)]
      ∧ ∃ p s, get_path_prefix false "." "a.b" = some p
        ∧ get_path_suffix false "." "a.b" = some s
        ∧ write_tsv show_whole false "." "a.b" []
            [(0, ⟨1, 0, 5, 0, 9⟩), (1, ⟨0, 0, 0, 0, 0⟩), (2, ⟨1, 1, 25, 0, 9⟩)]
          = some (tsv_rows (fun info => decide (0 < info.mean_cov)) show_whole "a.b" p s
              [(0, ⟨1, 0, 5, 0, 9⟩), (1, ⟨0, 0, 0, 0, 0⟩), (2, ⟨1, 1, 25, 0, 9⟩)]) :=
  have hasc : keys_ascending
      [(0, ⟨1, 0, 5, 0, 9⟩), (1, ⟨0, 0, 0, 0, 0⟩), (2, ⟨1, 1, 25, 0, 9⟩)] := by
    decide
  ⟨hasc,
    (write_tsv_rows_positive show_whole false "." "a.b" [] _ hasc (by decide)).imp
      (fun _ hp => hp.imp (fun _ hs => ⟨hs.1, hs.2.1, hs.2.2.1⟩))⟩

/-! ## The structured path record -/

theorem write_json_bins_loop_step (fmt : ℚ → String) (size i : Nat)
    (e : Nat × path_info_t) (rest : BinMap) (out : String) :
    write_json_bins_loop fmt size i (e :: rest) out
      = write_json_bins_loop fmt size (i + 1) rest
          (if i + 1 ≠ size then out ++ json_bin_entry fmt e ++ ","
            else out ++ json_bin_entry fmt e) := by
  simp only [write_json_bins_loop, json_bin_entry, String.intercalate,
    String.intercalate.go, String.append_assoc]

theorem write_json_links_loop_step (size i : Nat) (e : Nat × Nat)
    (rest : List (Nat × Nat)) (out : String) :
    write_json_links_loop size i (e :: rest) out
      = write_json_links_loop size (i + 1) rest
          (if i + 1 < size then out ++ json_link_entry e ++ ","
            else out ++ json_link_entry e) := by
  simp only [write_json_links_loop, json_link_entry, String.intercalate,
    String.intercalate.go, String.append_assoc]

theorem write_json_bins_loop_entries (fmt : ℚ → String) (size : Nat) :
    ∀ (rest : BinMap) (i : Nat) (out : String), i + rest.length = size →
      write_json_bins_loop fmt size i rest out
        = out ++ String.intercalate "," (rest.map (json_bin_entry fmt)) := by
  intro rest
  induction rest with
  | nil =>
    intro i out _
    simp [write_json_bins_loop, String.intercalate]
  | cons e rest ih =>
    intro i out hsz
    cases rest with
    | nil =>
      have hi : i + 1 = size := by simpa using hsz
      rw [write_json_bins_loop_step]
      simp [write_json_bins_loop, hi, intercalate_singleton]
    | cons r rs =>
      have hi : i + 1 ≠ size := by
        simp only [List.length_cons] at hsz
        omega
      have hsz2 : (i + 1) + (r :: rs).length = size := by
        simp only [List.length_cons] at hsz ⊢
        omega
      rw [write_json_bins_loop_step, if_pos hi, ih (i + 1) _ hsz2]
      simp only [List.map_cons, intercalate_cons_cons, String.append_assoc]

theorem write_json_links_loop_entries (size : Nat) :
    ∀ (rest : List (Nat × Nat)) (i : Nat) (out : String), i + rest.length = size →
      write_json_links_loop size i rest out
        = out ++ String.intercalate "," (rest.map json_link_entry) := by
  intro rest
  induction rest with
  | nil =>
    intro i out _
    simp [write_json_links_loop, String.intercalate]
  | cons e rest ih =>
    intro i out hsz
    cases rest with
    | nil =>
      have hi : ¬ (i + 1 < size) := by
        simp only [List.length_cons, List.length_nil] at hsz
        omega
      rw [write_json_links_loop_step]
      simp [write_json_links_loop, hi, intercalate_singleton]
    | cons r rs =>
      have hi : i + 1 < size := by
        simp only [List.length_cons] at hsz
        omega
      have hsz2 : (i + 1) + (r :: rs).length = size := by
        simp only [List.length_cons] at hsz ⊢
        omega
      rw [write_json_links_loop_step, if_pos hi, ih (i + 1) _ hsz2]
      simp only [List.map_cons, intercalate_cons_cons, String.append_assoc]

/-- C4: for every path name, link list and map of bin records, `write_json`
returns and writes one record whose `"bins"` array holds exactly one
six-element entry per map entry, in the order of the map (ascending bin id),
and whose `"links"` array holds exactly one pair per element of the link
list, in the order of that list, the entries of each array separated by single
commas with none leading or trailing, also when a collection is empty. -/
theorem write_json_record (fmt : ℚ → String) (agg_delim : Bool)
    (delim path_name : String) (links : List (Nat × Nat)) (bins : BinMap) :
    ∃ p s, get_path_prefix agg_delim delim path_name = some p
      ∧ get_path_suffix agg_delim delim path_name = some s
      ∧ write_json fmt agg_delim delim path_name links bins
          = some (json_path_record fmt path_name
              (if delim.isEmpty then none else some (p, s)) links bins) := by
  obtain ⟨p, hp⟩ := get_path_prefix_returns agg_delim delim path_name
  obtain ⟨s, hs⟩ := get_path_suffix_returns agg_delim delim path_name
  refine ⟨p, s, hp, hs, ?_⟩
  simp only [write_json, hp, hs, Option.bind_eq_bind, Option.some_bind, Option.pure_def]
  rw [write_json_links_loop_entries links.length links 0 _ (by simp),
    write_json_bins_loop_entries fmt bins.length bins 0 _ (by simp)]
  cases hde : delim.isEmpty <;>
    simp only [json_path_record, String.append_assoc, Bool.not_false, Bool.not_true,
      if_true, if_false, Bool.false_eq_true, String.empty_append]

/-! ## The structured header -/

theorem digitChar_ne_newline (n : Nat) (h : n < 10) : Nat.digitChar n ≠ '\n' := by
  interval_cases n <;> decide

theorem toDigitsCore_no_newline :
    ∀ (fuel n : Nat) (ds : List Char), '\n' ∉ ds → '\n' ∉ Nat.toDigitsCore 10 fuel n ds := by
  intro fuel
  induction fuel with
  | zero =>
    intro n ds h
    simpa [Nat.toDigitsCore] using h
  | succ k ih =>
    intro n ds h
    have hd : '\n' ∉ Nat.digitChar (n % 10) :: ds := by
      intro hm
      rcases List.mem_cons.mp hm with h1 | h1
      · exact digitChar_ne_newline _ (Nat.mod_lt _ (by decide)) h1.symm
      · exact h h1
    simp only [Nat.toDigitsCore]
    split
    · exact hd
    · exact ih _ _ hd

theorem toString_no_newline (n : Nat) : '\n' ∉ (toString n).data := by
  show '\n' ∉ (Nat.repr n).data
  unfold Nat.repr Nat.toDigits
  exact toDigitsCore_no_newline _ _ _ (by simp)

/-- C6 as stated fails for a pangenome of length 100 and a bin width of 10:
the line `write_header_json` writes is not the one-line object with the keys
`version`, `bin_width`, `pangenome_length`. -/
theorem write_header_json_key_not_version :
    write_header_json 100 10
        = "\x7b\"odgi_version\": 10,\"bin_width\": 10,\"pangenome_length\": 100\x7d\n"
      ∧ write_header_json 100 10
        ≠ json_object [("version", ODGI_JSON_VERSION), ("bin_width", 10),
            ("pangenome_length", 100)] ++ "\n" := by
  decide

/-- C6, amended: for every pangenome length `L` and bin width `W`,
`write_header_json` writes exactly one line holding one JSON object with the
three keys `odgi_version`, `bin_width` and `pangenome_length`, in that order,
whose values are the protocol version constant, `W` and `L`. -/
theorem write_header_json_object (L W : Nat) :
    write_header_json L W
        = json_object [("odgi_version", ODGI_JSON_VERSION), ("bin_width", W),
            ("pangenome_length", L)] ++ "\n"
      ∧ '\n' ∉ (json_object [("odgi_version", ODGI_JSON_VERSION), ("bin_width", W),
            ("pangenome_length", L)]).data
      ∧ ODGI_JSON_VERSION = 10 := by
  refine ⟨?_, ?_, rfl⟩
  · have e1 : "\x7b\"odgi_version\": " = "\x7b" ++ "\"" ++ "odgi_version" ++ "\": " := by
      decide
    have e2 : "\"bin_width\": " = "\"" ++ "bin_width" ++ "\": " := by decide
    have e3 : "\"pangenome_length\": " = "\"" ++ "pangenome_length" ++ "\": " := by decide
    simp only [write_header_json, json_object, List.map_cons, List.map_nil,
      String.intercalate, String.intercalate.go, e1, e2, e3, String.append_assoc]
  · have hv := toString_no_newline ODGI_JSON_VERSION
    have hw := toString_no_newline W
    have hl := toString_no_newline L
    have c1 : '\n' ∉ "\x7b".data := by decide
    have c2 : '\n' ∉ "\"".data := by decide
    have c3 : '\n' ∉ "odgi_version".data := by decide
    have c4 : '\n' ∉ "\": ".data := by decide
    have c5 : '\n' ∉ ",".data := by decide
    have c6 : '\n' ∉ "bin_width".data := by decide
    have c7 : '\n' ∉ "pangenome_length".data := by decide
    have c8 : '\n' ∉ "\x7d".data := by decide
    simp only [json_object, List.map_cons, List.map_nil, String.intercalate,
      String.intercalate.go, String.data_append, List.mem_append, not_or]
    exact ⟨⟨c1, ⟨⟨⟨⟨⟨⟨c2, c3⟩, c4⟩, hv⟩, c5⟩, ⟨⟨⟨c2, c6⟩, c4⟩, hw⟩⟩, c5⟩, ⟨⟨⟨c2, c7⟩, c4⟩, hl⟩⟩, c8⟩

/-! ## The configuration check of `main_bin` -/

/-- C1 as stated fails on the command line without arguments: the flags
parse, `num_bins` and `bin_width` are both zero, the status is 1, and the
help text of the parser is written to standard output. -/
theorem main_bin_no_arguments_prints_help :
    Flags.unset.num_bins = 0 ∧ Flags.unset.bin_width = 0
      ∧ (main_bin show_whole (fun _ _ _ => []) 0 (Parsed.ok Flags.unset)).exit
          = Exit.returned 1
      ∧ (main_bin show_whole (fun _ _ _ => []) 0 (Parsed.ok Flags.unset)).stdout
          = [Out.parser_help]
      ∧ (main_bin show_whole (fun _ _ _ => []) 0 (Parsed.ok Flags.unset)).stdout ≠ [] := by
  decide

/-- C1, amended: for every invocation whose arguments parse with
`num_bins = 0` and `bin_width = 0`, `main_bin` returns status 1, never calls
the binning engine, and writes no header line, header object, bin-sequence
object or path row; with at least one argument it writes nothing to standard
output, and with none the only write is the help text of the parser. -/
theorem main_bin_both_zero (fmt : ℚ → String)
    (engine : String → Nat → Nat → List SinkCall) (nargs : Nat) (a : Flags)
    (hn : a.num_bins = 0) (hw : a.bin_width = 0) :
    (main_bin fmt engine nargs (Parsed.ok a)).exit = Exit.returned 1
      ∧ (main_bin fmt engine nargs (Parsed.ok a)).engine_call = none
      ∧ (∀ s, Out.text s ∉ (main_bin fmt engine nargs (Parsed.ok a)).stdout)
      ∧ (nargs ≠ 0 → (main_bin fmt engine nargs (Parsed.ok a)).stdout = [])
      ∧ (nargs = 0 → (main_bin fmt engine nargs (Parsed.ok a)).stdout = [Out.parser_help]) := by
  by_cases h : nargs = 0
  · subst h
    simp [main_bin]
  · simp [main_bin, h, hn, hw]

/-- The amended C1 on `odgi bin -i g.og`, which sets neither bin count nor
bin width. -/
theorem main_bin_both_zero_witness :
    (main_bin show_whole (fun _ _ _ => [SinkCall.header 20 10]) 2
        (Parsed.ok ⟨"", "g.og", "", false, false, 0, 0, false⟩)).exit = Exit.returned 1
      ∧ (main_bin show_whole (fun _ _ _ => [SinkCall.header 20 10]) 2
        (Parsed.ok ⟨"", "g.og", "", false, false, 0, 0, false⟩)).stdout = [] :=
  have h := main_bin_both_zero show_whole (fun _ _ _ => [SinkCall.header 20 10]) 2
    ⟨"", "g.og", "", false, false, 0, 0, false⟩ rfl rfl
  ⟨h.1, h.2.2.2.1 (by decide)⟩

/-- Where the sum of bin count and bin width does not wrap to zero,
`main_bin` calls the engine with exactly these two values. -/
theorem main_bin_calls_engine (fmt : ℚ → String)
    (engine : String → Nat → Nat → List SinkCall) (nargs : Nat) (a : Flags)
    (hargs : nargs ≠ 0) (hsum : (a.num_bins + a.bin_width) % 2 ^ 64 ≠ 0) :
    (main_bin fmt engine nargs (Parsed.ok a)).engine_call
      = some ⟨if a.aggregate_delim then a.path_delim else "", a.output_json,
          a.num_bins, a.bin_width⟩ := by
  have hsum2 : ¬ (a.num_bins + a.bin_width) % 18446744073709551616 = 0 := hsum
  cases hj : a.output_json <;> simp [main_bin, hargs, hsum2, hj]

/-- C2, at `num_bins = 2^63` and `bin_width = 2^63`: both are 64-bit values
and neither is zero, yet `main_bin` reports the configuration error, returns
1 and does not call the engine. -/
theorem main_bin_config_check_wraps (fmt : ℚ → String)
    (engine : String → Nat → Nat → List SinkCall) :
    (2 ^ 63 < 2 ^ 64 ∧ 2 ^ 63 ≠ 0)
      ∧ (main_bin fmt engine 6
          (Parsed.ok ⟨"", "g.og", "", false, false, 2 ^ 63, 2 ^ 63, false⟩)).exit
          = Exit.returned 1
      ∧ (main_bin fmt engine 6
          (Parsed.ok ⟨"", "g.og", "", false, false, 2 ^ 63, 2 ^ 63, false⟩)).stderr
          = [Out.text "[odgi bin] error: a bin width or a bin count is required\n"]
      ∧ (main_bin fmt engine 6
          (Parsed.ok ⟨"", "g.og", "", false, false, 2 ^ 63, 2 ^ 63, false⟩)).engine_call
          = none := by
  refine ⟨by decide, ?_, ?_, ?_⟩ <;> simp [main_bin]

/-! ## The tabular header -/

/-- C7, on `odgi bin -i g.og -w 10`: the first write of `main_bin` is a
header line of seven tab-separated names, ending with `mean.pos`, while a row
written by `write_tsv` has nine fields. -/
theorem main_bin_tsv_header_seven_columns (fmt : ℚ → String)
    (engine : String → Nat → Nat → List SinkCall) :
    (main_bin fmt engine 4
        (Parsed.ok ⟨"", "g.og", "", false, false, 0, 10, false⟩)).stdout.head?
        = some (Out.text (String.intercalate "\t"
            ["path.name", "path.prefix", "path.suffix", "bin",
              "mean.cov", "mean.inv", "mean.pos"] ++ "\n"))
      ∧ write_tsv show_whole false "" "p" [] [(0, ⟨1, 0, 5, 0, 9⟩)]
        = some (String.intercalate "\t"
            ["p", "NA", "NA", "0", "1", "0", "5", "0", "9"] ++ "\n") := by
  have hput : put tsv_header_line = [Out.text (String.intercalate "\t"
      ["path.name", "path.prefix", "path.suffix", "bin",
        "mean.cov", "mean.inv", "mean.pos"] ++ "\n")] := by decide
  refine ⟨?_, by decide⟩
  simp [main_bin, hput]

/-! ## The identifier emitter -/

/-- A factory that has seen nothing hands out consecutive ids and never
reports a duplicate, whatever identifiers it is given. -/
theorem emit_ids_consecutive :
    ∀ (ids : List String) (f : id_emitter_factory), f.seen_identifiers = [] →
      emit_ids f ids
        = (List.range ids.length).map
            (fun (k : Nat) => Emitted.id (f.current_id + 1 + (k : Int))) := by
  intro ids
  induction ids with
  | nil =>
    intro f _
    simp [emit_ids]
  | cons a rest ih =>
    intro f hf
    have hstep : f.emit_id a
        = (Emitted.id (f.current_id + 1), ⟨f.seen_identifiers, f.current_id + 1⟩) := by
      simp [id_emitter_factory.emit_id, hf]
    simp only [emit_ids, hstep]
    rw [ih ⟨f.seen_identifiers, f.current_id + 1⟩ hf, List.length_cons, List.range_succ_eq_map]
    simp only [List.map_cons, List.map_map, Nat.cast_zero, add_zero]
    congr 1
    apply List.map_congr_left
    intro k _
    simp only [Function.comp, Nat.cast_succ]
    congr 1
    omega

/-- C8, on the identifier `s1` passed twice to a fresh factory: the second
call returns id 2 and reports no duplicate. -/
theorem emit_id_repeated_identifier :
    emit_ids id_emitter_factory.fresh ["s1", "s1"] = [Emitted.id 1, Emitted.id 2]
      ∧ (id_emitter_factory.fresh.emit_id "s1").2.seen_identifiers = [] := by
  decide

end Odgi
